import Mathlib

set_option maxRecDepth 10000

/-!
Shallow embedding of the TLS session-resumption subsystem of `src/ssl.c`:
the session-ticket key store and its sort order, the encrypt/decrypt
ticket-key callback, the local (internal) rotator, the memcached cluster
rotator, and the YAML-shaped serialization of ticket keys.

Machine integers (`uint64_t`) are modelled as `Nat` with explicit reduction
modulo `2 ^ 64` at the points where the C code performs 64-bit arithmetic.
Byte buffers are modelled as `List Nat` (each element a byte value) and C
strings as `List Char`.
-/

namespace H2OSsl

/-- The modulus of `uint64_t` arithmetic. -/
def u64Mod : Nat := 2 ^ 64

/-- `UINT64_MAX`. -/
def UINT64MAX : Nat := u64Mod - 1

/-- 64-bit addition (`x + y` on `uint64_t` operands). -/
def add64 (x y : Nat) : Nat := (x + y) % u64Mod

/-- 64-bit subtraction (`x - y` on `uint64_t` operands, `y ≤ 2^64`). -/
def sub64 (x y : Nat) : Nat := (x + u64Mod - y) % u64Mod

/-- Modelled from the spec: an OpenSSL `EVP_CIPHER` is external to the
repository; the code reads only its canonical short name
(`OBJ_nid2sn(EVP_CIPHER_type(c))`) and its `key_len`, so the model keeps
exactly those two fields. -/
structure CipherSpec where
  sn : List Char
  keyLen : Nat
deriving DecidableEq

/-- Modelled from the spec: an OpenSSL `EVP_MD` is external to the
repository; the code reads only its canonical short name and its
`block_size`. -/
structure MdSpec where
  sn : List Char
  blockSize : Nat
deriving DecidableEq

/-- Modelled from the spec: `EVP_aes_256_cbc()` — the default ticket cipher;
the spec's document example fixes its key length at 32 bytes. -/
def EVP_aes_256_cbc : CipherSpec := ⟨"AES-256-CBC".data, 32⟩

/-- Modelled from the spec: `EVP_sha256()` — the default ticket MAC; the
spec's document example fixes its block size at 64 bytes. -/
def EVP_sha256 : MdSpec := ⟨"SHA256".data, 64⟩

/-- Modelled from the spec: the portion of OpenSSL's cipher table the spec
names (the default algorithm set). -/
def evpCipherTable : List CipherSpec := [EVP_aes_256_cbc]

/-- Modelled from the spec: the portion of OpenSSL's digest table the spec
names. -/
def evpMdTable : List MdSpec := [EVP_sha256]

/-- Modelled from the spec: `EVP_get_cipherbyname`, restricted to the
modelled cipher table. -/
def EVP_get_cipherbyname (s : List Char) : Option CipherSpec :=
  evpCipherTable.find? (fun c => decide (c.sn = s))

/-- Modelled from the spec: `EVP_get_digestbyname`, restricted to the
modelled digest table. -/
def EVP_get_digestbyname (s : List Char) : Option MdSpec :=
  evpMdTable.find? (fun m => decide (m.sn = s))

/-- `struct st_session_ticket_t`: one ticket key.  `name` is the 16-byte
identifier, `cipherKey`/`macKey` are the secret bytes stored directly after
the header in the C allocation. -/
structure Ticket where
  name : List Nat
  cipher : CipherSpec
  cipherKey : List Nat
  md : MdSpec
  macKey : List Nat
  not_before : Nat
  not_after : Nat
deriving DecidableEq

/-- The random bytes `RAND_pseudo_bytes` supplies to `new_ticket` when
`fill_in` is set: a name, a cipher key and a MAC key. -/
structure Rnd where
  name : List Nat
  cipherKey : List Nat
  macKey : List Nat
deriving DecidableEq

/-- `new_ticket(cipher, md, not_before, not_after, 1)`: builds the record,
filling name and secrets from the RNG (modelled as the explicit `r`
argument). -/
def new_ticket (cipher : CipherSpec) (md : MdSpec) (not_before not_after : Nat) (r : Rnd) : Ticket :=
  ⟨r.name, cipher, r.cipherKey, md, r.macKey, not_before, not_after⟩

/-- `memcmp` on byte buffers, as the sign the C code inspects:
lexicographic comparison returning -1/0/1. -/
def memcmpBytes : List Nat → List Nat → Int
  | [], [] => 0
  | [], _ :: _ => -1
  | _ :: _, [] => 1
  | a :: as, b :: bs => if a < b then -1 else if b < a then 1 else memcmpBytes as bs

/-- `ticket_sort_compare`: newer (`not_before` larger) first, ties broken by
`memcmp` on the 16-byte names. -/
def ticket_sort_compare (x y : Ticket) : Int :=
  if x.not_before ≠ y.not_before then (if x.not_before > y.not_before then -1 else 1)
  else memcmpBytes x.name y.name

/-- Insertion step of the model of `qsort(..., ticket_sort_compare)`. -/
def insertTicket (t : Ticket) : List Ticket → List Ticket
  | [] => [t]
  | u :: us => if ticket_sort_compare t u ≤ 0 then t :: u :: us else u :: insertTicket t us

/-- Model of `qsort(tickets.entries, ..., ticket_sort_compare)`: a sort that
is correct for the comparator (C's `qsort` guarantees a permutation ordered
by the comparator; the order of fully tied elements is unspecified there and
fixed arbitrarily here). -/
def sortTickets : List Ticket → List Ticket
  | [] => []
  | t :: ts => insertTicket t (sortTickets ts)

/-- Non-strict store order: `ticket_sort_compare x y ≤ 0`. -/
abbrev tkLe (x y : Ticket) : Prop := ticket_sort_compare x y ≤ 0

/-- The spec's strict store order: `not_before` descending, ties broken by
name ascending (strictly). -/
abbrev tkLt (x y : Ticket) : Prop :=
  y.not_before < x.not_before ∨ (x.not_before = y.not_before ∧ memcmpBytes x.name y.name < 0)

/-- Names pairwise distinct (spec invariant 3). -/
abbrev namesDistinct (ts : List Ticket) : Prop := (ts.map Ticket.name).Nodup

/-- `find_ticket_for_encryption`: scan newest-first; the first key with
`not_before ≤ now` answers — it is returned if also `now ≤ not_after`,
otherwise the search fails immediately. -/
def find_ticket_for_encryption : List Ticket → Nat → Option Ticket
  | [], _ => none
  | t :: ts, now =>
    if t.not_before ≤ now then (if now ≤ t.not_after then some t else none)
    else find_ticket_for_encryption ts now

/-- Result of the decrypt side of `ticket_key_callback` (`enc == 0`): the
returned int, and the data the cipher / HMAC contexts were initialized with
(`none` means the context was not touched). -/
structure DecOut where
  ret : Nat
  decInit : Option (CipherSpec × List Nat)
  macInit : Option (MdSpec × List Nat)
deriving DecidableEq

/-- Index-tracking linear search of the decrypt path: first ticket whose
16-byte name `memcmp`-equals the presented `key_name`. -/
def findNamed : List Ticket → List Nat → Option (Nat × Ticket)
  | [], _ => none
  | t :: ts, kn =>
    if memcmpBytes t.name kn = 0 then some (0, t)
    else (findNamed ts kn).map (fun p => (p.1 + 1, p.2))

/-- `ticket_key_callback` with `enc == 0`: linear search by name; not found
returns 0 touching nothing; found initializes both contexts from the key and
returns 1 when the key is the newest (index 0), else 2. -/
def ticket_key_callback_dec (store : List Ticket) (keyName : List Nat) : DecOut :=
  match findNamed store keyName with
  | none => ⟨0, none, none⟩
  | some (i, t) => ⟨if i = 0 then 1 else 2, some (t.cipher, t.cipherKey), some (t.md, t.macKey)⟩

/-- Result of the encrypt side of `ticket_key_callback` (`enc == 1`). -/
structure EncOut where
  ret : Nat
  keyName : List Nat
  encInit : Option (CipherSpec × List Nat)
  macInit : Option (MdSpec × List Nat)
  ephemeralFreed : Option Ticket
deriving DecidableEq

/-- `ticket_key_callback` with `enc == 1`: use the encryption-eligible key
if one exists; otherwise build a dummy (ephemeral) AES-256-CBC/SHA-256 key
valid on `[0, UINT64_MAX]`, use it, and pass it to `free_ticket` before
returning (recorded in `ephemeralFreed`; the store is never modified). -/
def ticket_key_callback_enc (store : List Ticket) (now : Nat) (fresh : Rnd) : EncOut :=
  match find_ticket_for_encryption store now with
  | some t => ⟨1, t.name, some (t.cipher, t.cipherKey), some (t.md, t.macKey), none⟩
  | none =>
    let t := new_ticket EVP_aes_256_cbc EVP_sha256 0 UINT64MAX fresh
    ⟨1, t.name, some (t.cipher, t.cipherKey), some (t.md, t.macKey), some t⟩

/-- `entries[0]->not_before` as snapshotted by the updaters (0 for the empty
store, the initial value of `newest_not_before`). -/
def newestNotBefore : List Ticket → Nat
  | [] => 0
  | t :: _ => t.not_before

/-- `entries[size-1]->not_after` as snapshotted by the internal updater
(`UINT64_MAX` for the empty store). -/
def oldestNotAfter (ts : List Ticket) : Nat :=
  match ts.getLast? with
  | none => UINT64MAX
  | some t => t.not_after

/-- The expiry loop of `ticket_internal_updater`: pop the last entry while
its `not_after < now`. -/
def pruneExpired (ts : List Ticket) (now : Nat) : List Ticket :=
  ((ts.reverse.dropWhile (fun t => decide (t.not_after < now))).reverse)

/-- `struct st_session_ticket_generating_updater_conf_t`. -/
structure GeneratingConf where
  cipher : CipherSpec
  md : MdSpec
  lifetime : Nat
deriving DecidableEq

/-- One iteration of the loop body of `ticket_internal_updater` at time
`now` (sleeps elided): snapshot the edges, insert a freshly minted key at
index 0 if `newest_not_before + lifetime/4 ≤ now`, then, if the snapshotted
`oldest_not_after < now`, pop expired entries off the tail. -/
def ticket_internal_updater_tick (gen : GeneratingConf) (store : List Ticket) (now : Nat)
    (fresh : Rnd) : List Ticket :=
  let newestNB := newestNotBefore store
  let oldestNA := oldestNotAfter store
  let afterInsert :=
    if add64 newestNB (gen.lifetime / 4) ≤ now then
      new_ticket gen.cipher gen.md now (sub64 (add64 now gen.lifetime) 1) fresh :: store
    else store
  if oldestNA < now then pruneExpired afterInsert now else afterInsert

/-- Lowercase hex alphabet, high nibble first, as `h2o_hex_encode` emits. -/
def hexChars : List Char := "0123456789abcdef".data

/-- The character for one nibble. -/
def hexDigit (n : Nat) : Char := hexChars.getD n (Char.ofNat 48)

/-- Modelled from the spec: the value of one hex character as
`h2o_hex_decode` reads it (both cases accepted), `none` on a non-hex
character. -/
def hexVal? (c : Char) : Option Nat :=
  match hexChars.findIdx? (fun d => d == c) with
  | some i => some i
  | none =>
    match ("ABCDEF".data).findIdx? (fun d => d == c) with
    | some i => some (10 + i)
    | none => none

/-- Modelled from the spec: `h2o_hex_encode` — two lowercase hex characters
per byte, no separators. -/
def hexEncode : List Nat → List Char
  | [] => []
  | b :: bs => hexDigit (b / 16) :: hexDigit (b % 16) :: hexEncode bs

/-- Modelled from the spec: `h2o_hex_decode` — reads pairs of hex characters
into bytes; fails on a stray character or an odd-length input. -/
def hexDecode : List Char → Option (List Nat)
  | [] => some []
  | [_] => none
  | c1 :: c2 :: rest =>
    match hexVal? c1, hexVal? c2, hexDecode rest with
    | some h, some l, some bs => some ((h * 16 + l) :: bs)
    | _, _, _ => none

/-- Fueled digit loop of the decimal rendering (the fuel only forces
termination; `n` itself is always enough fuel). -/
def natToDecAux : Nat → Nat → List Char
  | 0, _ => []
  | fuel + 1, n => if n < 10 then [hexDigit n] else natToDecAux fuel (n / 10) ++ [hexDigit (n % 10)]

/-- Decimal rendering of a `uint64_t`, as `snprintf` with `%PRIu64` emits. -/
def natToDec (n : Nat) : List Char := natToDecAux (n + 1) n

/-- The value of one decimal character. -/
def decVal? (c : Char) : Option Nat :=
  match hexVal? c with
  | some v => if v < 10 then some v else none
  | none => none

/-- Accumulating decimal reader. -/
def decGo : List Char → Nat → Option Nat
  | [], acc => some acc
  | c :: r, acc =>
    match decVal? c with
    | some v => decGo r (acc * 10 + v)
    | none => none

/-- Modelled from the spec: `sscanf("%SCNu64")` on the in-range decimal
scalars the serializer produces — a non-empty all-digit string. -/
def decToNat? : List Char → Option Nat
  | [] => none
  | c :: r => decGo (c :: r) 0

/-- The six scalar attribute values of one serialized ticket entry, in the
fixed order the serializer writes them. -/
structure RawEntry where
  nameF : List Char
  cipherF : List Char
  hashF : List Char
  keyF : List Char
  notBeforeF : List Char
  notAfterF : List Char
deriving DecidableEq

def lit1 : List Char := "- name: ".data

def lit2 : List Char := "  cipher: ".data

def lit3 : List Char := "  hash: ".data

def lit4 : List Char := "  key: ".data

def lit5 : List Char := "  not_before: ".data

def lit6 : List Char := "  not_after: ".data

/-- Newline character. -/
def nlChar : Char := Char.ofNat 10

/-- The text of one entry of the serialized document, exactly the
`snprintf` format string of `serialize_ticket_entry`. -/
def renderRaw (e : RawEntry) : List Char :=
  lit1 ++ (e.nameF ++ nlChar :: (lit2 ++ (e.cipherF ++ nlChar :: (lit3 ++ (e.hashF ++
    nlChar :: (lit4 ++ (e.keyF ++ nlChar :: (lit5 ++ (e.notBeforeF ++
    nlChar :: (lit6 ++ (e.notAfterF ++ [nlChar])))))))))))

/-- The scalar attribute values `serialize_ticket_entry` derives from a
ticket: hex name, canonical cipher and hash short names, hex of
`cipher_key || mac_key`, decimal validity bounds. -/
def rawOf (t : Ticket) : RawEntry :=
  ⟨hexEncode t.name, t.cipher.sn, t.md.sn, hexEncode (t.cipherKey ++ t.macKey),
    natToDec t.not_before, natToDec t.not_after⟩

/-- The full (untruncated) rendering of one ticket entry; its length is the
value `snprintf` returns to `serialize_tickets`. -/
def serialize_ticket_entry (t : Ticket) : List Char := renderRaw (rawOf t)

/-- `flatMap`, written out so its equations are plain. -/
def listFlat (f : α → List β) : List α → List β
  | [] => []
  | a :: as => f a ++ listFlat f as

/-- The concatenation of the untruncated entry renderings: the document
`serialize_tickets` intends to produce. -/
def docOf (ts : List Ticket) : List Char := listFlat serialize_ticket_entry ts

/-- The bytes `snprintf(buf, 1024, ...)` actually leaves for one entry when
`serialize_tickets` accepts it: the full rendering when it fits in 1023
characters plus the terminator, otherwise the first 1023 characters followed
by the NUL terminator (the rendering was truncated). -/
def writtenEntry (t : Ticket) : List Char :=
  let r := serialize_ticket_entry t
  if r.length ≤ 1023 then r else r.take 1023 ++ [Char.ofNat 0]

/-- `serialize_tickets`: per entry, `snprintf` into a 1024-byte window; a
returned length `l > 1024` aborts the whole serialization (freeing the
buffer, i.e. `none`); otherwise `l` bytes are appended and the concatenation
is returned. -/
def serialize_tickets (ts : List Ticket) : Option (List Char) :=
  if ∀ t ∈ ts, (serialize_ticket_entry t).length ≤ 1024 then
    some (listFlat writtenEntry ts)
  else none

/-- Strip an expected literal from the front of the input. -/
def expectLit : List Char → List Char → Option (List Char)
  | [], s => some s
  | _ :: _, [] => none
  | c :: ps, d :: ds => if c = d then expectLit ps ds else none

/-- Read the scalar up to the next newline, consuming the newline. -/
def takeLine : List Char → Option (List Char × List Char)
  | [] => none
  | c :: rest =>
    if c = nlChar then some ([], rest)
    else (takeLine rest).map (fun p => (c :: p.1, p.2))

/-- Modelled from the spec: one mapping of the document grammar of §6 —
`yoml_parse_document` is external to the repository, so the YAML layer is
modelled on the canonical grammar the spec fixes (a block-sequence entry
whose six scalar attributes appear in the serializer's order). -/
def parseEntryText (s : List Char) : Option (RawEntry × List Char) :=
  (expectLit lit1 s).bind fun s1 =>
  (takeLine s1).bind fun p1 =>
  (expectLit lit2 p1.2).bind fun s2 =>
  (takeLine s2).bind fun p2 =>
  (expectLit lit3 p2.2).bind fun s3 =>
  (takeLine s3).bind fun p3 =>
  (expectLit lit4 p3.2).bind fun s4 =>
  (takeLine s4).bind fun p4 =>
  (expectLit lit5 p4.2).bind fun s5 =>
  (takeLine s5).bind fun p5 =>
  (expectLit lit6 p5.2).bind fun s6 =>
  (takeLine s6).map fun p6 =>
  (⟨p1.1, p2.1, p3.1, p4.1, p5.1, p6.1⟩, p6.2)

/-- Fueled iteration of `parseEntryText` over the whole document. -/
def parseDocTextGo : Nat → List Char → Option (List RawEntry)
  | _, [] => some []
  | 0, _ :: _ => none
  | fuel + 1, s =>
    (parseEntryText s).bind fun p => (parseDocTextGo fuel p.2).map (p.1 :: ·)

/-- Modelled from the spec: the external YAML parse of the whole document —
a sequence of entry mappings (each entry consumes at least one character, so
the input length bounds the entry count). -/
def parseDocText (s : List Char) : Option (List RawEntry) := parseDocTextGo s.length s

/-- `parse_ticket_entry`: validate and decode the six scalar attributes in
the order the C code fetches them — 32 hex characters of name, known cipher
and hash names, hex key of length `2*(key_len+block_size)` split at
`key_len`, decimal bounds with `not_before ≤ not_after`. -/
def parse_ticket_entry (e : RawEntry) : Option Ticket :=
  if e.nameF.length ≠ 32 then none else
  match hexDecode e.nameF with
  | none => none
  | some nm =>
    match EVP_get_cipherbyname e.cipherF with
    | none => none
    | some cipher =>
      match EVP_get_digestbyname e.hashF with
      | none => none
      | some md =>
        if e.keyF.length ≠ (cipher.keyLen + md.blockSize) * 2 then none else
        match hexDecode e.keyF with
        | none => none
        | some kb =>
          match decToNat? e.notBeforeF, decToNat? e.notAfterF with
          | some nb, some na =>
            if nb ≤ na then
              some ⟨nm, cipher, kb.take cipher.keyLen, md, kb.drop cipher.keyLen, nb, na⟩
            else none
          | _, _ => none

/-- All-or-nothing elementwise parse: the C loop appends entries in document
order and aborts (freeing everything) on the first bad element. -/
def mapO (f : α → Option β) : List α → Option (List β)
  | [] => some []
  | a :: as =>
    match f a, mapO f as with
    | some b, some bs => some (b :: bs)
    | _, _ => none

/-- `parse_tickets`: parse the document into entries (external YAML layer),
then decode each entry in order; any failure yields the error path (`none`).
The result is in document order — `parse_tickets` itself does not sort. -/
def parse_tickets (s : List Char) : Option (List Ticket) :=
  (parseDocText s).bind (mapO parse_ticket_entry)

/-- `load_tickets_file` minus the I/O: parse the file contents, sort with
`ticket_sort_compare`, and swap the result into the store (the returned
list is the installed store). -/
def load_tickets_install (s : List Char) : Option (List Ticket) :=
  (parse_tickets s).map sortTickets

/-- One memcached operation of the cluster rotator, with the key it is
issued against. -/
inductive McOp where
  | get (key : List Char)
  | add (key : List Char) (value : Option (List Char))
  | set (key : List Char) (value : Option (List Char)) (cas : Nat)
deriving DecidableEq

/-- The key an operation addresses. -/
def mcOpKey : McOp → List Char
  | .get k => k
  | .add k _ => k
  | .set k _ _ => k

/-- Outcome of one `reconcile` pass of `ticket_memcached_update_tickets`:
whether it requests an immediate re-run, the sequence swapped into the local
store (if any), and the memcached operations issued. -/
structure ReconcileResult where
  retry : Bool
  installed : Option (List Ticket)
  ops : List McOp
deriving DecidableEq

/-- The response to the initial GET, after the transport-level receive
succeeded: a value with its CAS token, a miss, or another status (transport
errors and serial mismatches abort the pass and reconnect; they are outside
this model). -/
inductive FetchStatus where
  | ok (data : List Char) (cas : Nat)
  | notfound
  | otherStatus (cas : Nat)
deriving DecidableEq

/-- The decision core of `ticket_memcached_update_tickets`, after the fetch
has been parsed and `qsort`ed: mint-and-write when there is no currently
valid key or `entries[0]->not_before + lifetime/4 < now`, otherwise swap the
fetched sequence into the local store. -/
def reconcileCore (key : List Char) (gen : GeneratingConf) (sorted : List Ticket)
    (wasNotFound : Bool) (cas : Nat) (now : Nat) (fresh : Rnd) : ReconcileResult :=
  let hasValid := (find_ticket_for_encryption sorted now).isSome
  if ¬hasValid ∨ add64 (newestNotBefore sorted) (gen.lifetime / 4) < now then
    let nb := if hasValid then add64 now 60 else now
    let t := new_ticket gen.cipher gen.md nb (add64 nb gen.lifetime) fresh
    let payload := serialize_tickets (t :: sorted)
    { retry := true, installed := none,
      ops := [.get key, if wasNotFound then .add key payload else .set key payload cas] }
  else
    { retry := false, installed := some sorted, ops := [.get key] }

/-- `ticket_memcached_update_tickets(conn, key, now)`: GET the key; on a hit
parse the stored document (a parse failure aborts the pass without retry);
on a miss start from the empty sequence; sort; then run the decision core.
-/
def ticket_memcached_update_tickets (key : List Char) (gen : GeneratingConf)
    (fetch : FetchStatus) (now : Nat) (fresh : Rnd) : ReconcileResult :=
  match fetch with
  | .ok data cas =>
    match parse_tickets data with
    | none => { retry := false, installed := none, ops := [.get key] }
    | some ts => reconcileCore key gen (sortTickets ts) false cas now fresh
  | .notfound => reconcileCore key gen [] true 0 now fresh
  | .otherStatus cas => reconcileCore key gen [] false cas now fresh

/-- The literal key `ticket_memcached_updater` passes to every pass:
`h2o_iovec_init(H2O_STRLIT("h2o:session-tickets"))`. -/
def sessionTicketsLiteral : List Char := "h2o:session-tickets".data

/-- The `memcached` sub-record of the configuration. -/
structure MemcachedConf where
  host : List Char
  port : Nat
  numThreads : Nat
  prefixStr : List Char
deriving DecidableEq

/-- The defaults `ssl_session_resumption_on_config` installs before reading
the `memcached` mapping (`host` is mandatory and overwritten). -/
def defaultMemcachedConf : MemcachedConf :=
  ⟨[], 11211, 1, ":h2o:ssl-resumption:".data⟩

/-- One connected-state pass of `ticket_memcached_updater`: connect to the
configured host and port, then reconcile against the fixed literal key. -/
structure MemcachedPass where
  host : List Char
  port : Nat
  result : ReconcileResult
deriving DecidableEq

/-- The pass `ticket_memcached_updater` runs, as a function of the full
memcached configuration: the key is the fixed literal, independent of
`conf.memcached.prefix`. -/
def ticket_memcached_updater_pass (mc : MemcachedConf) (gen : GeneratingConf)
    (fetch : FetchStatus) (now : Nat) (fresh : Rnd) : MemcachedPass :=
  ⟨mc.host, mc.port, ticket_memcached_update_tickets sessionTicketsLiteral gen fetch now fresh⟩

/-- The byte contents of the single allocation backing a ticket: an opaque
header of `sizeof(struct st_session_ticket_t)` bytes followed by the cipher
key and then the MAC key, as laid out by `new_ticket`. -/
def ticketAlloc (hdr : List Nat) (t : Ticket) : List Nat := hdr ++ t.cipherKey ++ t.macKey

/-- `h2o_mem_set_secure(p, 0, n)`: overwrite the first `n` bytes with zeros
(a wipe the compiler may not elide). -/
def h2o_mem_set_secure (bytes : List Nat) (n : Nat) : List Nat :=
  List.replicate (min n bytes.length) 0 ++ bytes.drop n

/-- `free_ticket`: wipe `sizeof(*ticket) + key_len + block_size` bytes of
the allocation — the sizes re-read from the ticket being freed — and release
it; the result is the final contents of the released block. -/
def free_ticket_mem (hdr : List Nat) (t : Ticket) : List Nat :=
  h2o_mem_set_secure (ticketAlloc hdr t) (hdr.length + t.cipher.keyLen + t.md.blockSize)

/-- `free_tickets`: free every entry of a replaced vector via
`free_ticket`. -/
def free_tickets_mem (hdr : List Nat) (ts : List Ticket) : List (List Nat) :=
  ts.map (free_ticket_mem hdr)

/-- Well-formed ticket: the shape every ticket built by the program has —
a 16-byte name, secret lengths matching the algorithm parameters, byte
values in range, `uint64_t` validity bounds with `not_before ≤ not_after`,
and algorithms resolvable by their canonical short names. -/
abbrev wfTicket (t : Ticket) : Prop :=
  t.name.length = 16 ∧ (∀ b ∈ t.name, b < 256) ∧
  t.cipherKey.length = t.cipher.keyLen ∧ (∀ b ∈ t.cipherKey, b < 256) ∧
  t.macKey.length = t.md.blockSize ∧ (∀ b ∈ t.macKey, b < 256) ∧
  t.not_before ≤ t.not_after ∧ t.not_after < u64Mod ∧
  EVP_get_cipherbyname t.cipher.sn = some t.cipher ∧
  EVP_get_digestbyname t.md.sn = some t.md

/-- Every ticket of the store is well-formed. -/
abbrev wfStore (ts : List Ticket) : Prop := ∀ t ∈ ts, wfTicket t

/-- Concrete RNG output used by the concrete evaluations. -/
def exRnd : Rnd := ⟨List.replicate 16 7, List.replicate 32 8, List.replicate 64 9⟩

/-- The default generating configuration (`ticket_init_defaults`):
AES-256-CBC, SHA-256, lifetime 3600 s. -/
def gen3600 : GeneratingConf := ⟨EVP_aes_256_cbc, EVP_sha256, 3600⟩

/-- A generating configuration with the (legal) lifetime 40 s. -/
def gen40 : GeneratingConf := ⟨EVP_aes_256_cbc, EVP_sha256, 40⟩

/-- Concrete well-formed ticket, `not_before = 100`. -/
def exA : Ticket :=
  ⟨List.range 16, EVP_aes_256_cbc, List.replicate 32 2, EVP_sha256, List.replicate 64 3, 100, 200⟩

/-- Concrete well-formed ticket, `not_before = 200`, name distinct from
`exA`. -/
def exB : Ticket :=
  ⟨List.replicate 16 9, EVP_aes_256_cbc, List.replicate 32 4, EVP_sha256, List.replicate 64 5,
    200, 300⟩

/-- An unsorted store (`exA` is older than `exB` but listed first). -/
def exUnsorted : List Ticket := [exA, exB]

/-- The same store in canonical order. -/
def exSorted : List Ticket := [exB, exA]

/-- A ticket whose validity window is still in the future at time 2000. -/
def c2k0 : Ticket :=
  ⟨List.range 16, EVP_aes_256_cbc, List.replicate 32 2, EVP_sha256, List.replicate 64 3,
    2100, 2140⟩

/-- A ticket valid at time 2000 whose `not_before + lifetime/4` is long
past. -/
def c2k1 : Ticket :=
  ⟨List.replicate 16 9, EVP_aes_256_cbc, List.replicate 32 4, EVP_sha256, List.replicate 64 5,
    1000, 3000⟩

/-- The single store entry of the rotation-cadence scenario at
`now = 1000000`: `not_before = now - 900`, `not_after = now + 2699`. -/
def c4k : Ticket :=
  ⟨List.range 16, EVP_aes_256_cbc, List.replicate 32 2, EVP_sha256, List.replicate 64 3,
    999100, 1002699⟩

/-- A ticket sharing `exA`'s name with a different `not_before`. -/
def c8F : Ticket :=
  ⟨List.range 16, EVP_aes_256_cbc, List.replicate 32 4, EVP_sha256, List.replicate 64 5,
    200, 300⟩

/-- A ticket whose entry rendering is exactly 1024 characters: key material
of 1 + 452 bytes and two-digit-total validity bounds. -/
def c10t : Ticket :=
  ⟨List.replicate 16 0, ⟨"AES-256-CBC".data, 1⟩, [0], ⟨"SHA256".data, 452⟩,
    List.replicate 452 0, 0, 10⟩

theorem memcmp_self (a : List Nat) : memcmpBytes a a = 0 := by
  induction a with
  | nil => rfl
  | cons x xs ih => simp [memcmpBytes, ih]

theorem memcmp_eq_zero_iff : ∀ a b : List Nat, memcmpBytes a b = 0 ↔ a = b
  | [], [] => by simp [memcmpBytes]
  | [], _ :: _ => by simp [memcmpBytes]
  | _ :: _, [] => by simp [memcmpBytes]
  | x :: xs, y :: ys => by
    simp only [memcmpBytes]
    split_ifs with h1 h2
    · simp; omega
    · simp; omega
    · have hxy : x = y := by omega
      simp [hxy, memcmp_eq_zero_iff xs ys]

theorem memcmp_neg : ∀ a b : List Nat, memcmpBytes b a = -memcmpBytes a b
  | [], [] => by simp [memcmpBytes]
  | [], _ :: _ => by simp [memcmpBytes]
  | _ :: _, [] => by simp [memcmpBytes]
  | x :: xs, y :: ys => by
    simp only [memcmpBytes]
    split_ifs with h1 h2 h3 _h4 _h5 _h6 <;> first
      | omega
      | simp [memcmp_neg xs ys]

theorem memcmp_le_cons {x y : Nat} {xs ys : List Nat} :
    memcmpBytes (x :: xs) (y :: ys) ≤ 0 ↔ x < y ∨ (x = y ∧ memcmpBytes xs ys ≤ 0) := by
  simp only [memcmpBytes]
  split_ifs with h1 h2
  · simp; omega
  · constructor
    · intro h; omega
    · intro h; omega
  · have hxy : x = y := by omega
    simp [hxy]

theorem memcmp_lt_cons {x y : Nat} {xs ys : List Nat} :
    memcmpBytes (x :: xs) (y :: ys) < 0 ↔ x < y ∨ (x = y ∧ memcmpBytes xs ys < 0) := by
  simp only [memcmpBytes]
  split_ifs with h1 h2
  · simp; omega
  · constructor
    · intro h; omega
    · intro h; omega
  · have hxy : x = y := by omega
    simp [hxy]

theorem memcmp_nil_le (c : List Nat) : memcmpBytes [] c ≤ 0 := by
  cases c <;> simp [memcmpBytes]

theorem memcmp_le_trans : ∀ a b c : List Nat,
    memcmpBytes a b ≤ 0 → memcmpBytes b c ≤ 0 → memcmpBytes a c ≤ 0
  | [], _, c, _, _ => memcmp_nil_le c
  | _ :: _, [], _, h1, _ => by simp [memcmpBytes] at h1
  | _ :: _, _ :: _, [], _, h2 => by simp [memcmpBytes] at h2
  | x :: xs, y :: ys, z :: zs, h1, h2 => by
    rw [memcmp_le_cons] at h1 h2 ⊢
    rcases h1 with h1 | ⟨h1e, h1r⟩
    · rcases h2 with h2 | ⟨h2e, _⟩
      · left; omega
      · left; omega
    · rcases h2 with h2 | ⟨h2e, h2r⟩
      · left; omega
      · exact Or.inr ⟨by omega, memcmp_le_trans xs ys zs h1r h2r⟩

theorem memcmp_le_total (a b : List Nat) : memcmpBytes a b ≤ 0 ∨ memcmpBytes b a ≤ 0 := by
  rcases le_or_lt (memcmpBytes a b) 0 with h | h
  · exact Or.inl h
  · right; rw [memcmp_neg]; omega

theorem tkLe_iff (x y : Ticket) :
    tkLe x y ↔
      y.not_before < x.not_before ∨
        (x.not_before = y.not_before ∧ memcmpBytes x.name y.name ≤ 0) := by
  unfold tkLe ticket_sort_compare
  split_ifs with h1 h2
  · simp; omega
  · constructor
    · intro h; omega
    · intro h
      rcases h with h | ⟨he, _⟩ <;> omega
  · have : x.not_before = y.not_before := by
      by_contra hne
      exact h1 hne
    simp [this]

theorem tkLe_trans {x y z : Ticket} (h1 : tkLe x y) (h2 : tkLe y z) : tkLe x z := by
  rw [tkLe_iff] at h1 h2 ⊢
  rcases h1 with h1 | ⟨h1e, h1m⟩
  · rcases h2 with h2 | ⟨h2e, _⟩
    · left; omega
    · left; omega
  · rcases h2 with h2 | ⟨h2e, h2m⟩
    · left; omega
    · exact Or.inr ⟨by omega, memcmp_le_trans _ _ _ h1m h2m⟩

theorem tkLe_total (x y : Ticket) : tkLe x y ∨ tkLe y x := by
  rw [tkLe_iff, tkLe_iff]
  rcases Nat.lt_trichotomy x.not_before y.not_before with h | h | h
  · right; left; omega
  · rcases memcmp_le_total x.name y.name with hm | hm
    · exact Or.inl (Or.inr ⟨h, hm⟩)
    · exact Or.inr (Or.inr ⟨h.symm, hm⟩)
  · left; left; omega

theorem tkLt_of_tkLe_of_ne {x y : Ticket} (h : tkLe x y)
    (hne : ¬(x.not_before = y.not_before ∧ x.name = y.name)) : tkLt x y := by
  rw [tkLe_iff] at h
  rcases h with h | ⟨he, hm⟩
  · exact Or.inl h
  · right
    refine ⟨he, lt_of_le_of_ne hm ?_⟩
    intro h0
    exact hne ⟨he, (memcmp_eq_zero_iff _ _).1 h0⟩

theorem tkLe_of_tkLt {x y : Ticket} (h : tkLt x y) : tkLe x y := by
  rw [tkLe_iff]
  rcases h with h | ⟨he, hm⟩
  · exact Or.inl h
  · exact Or.inr ⟨he, le_of_lt hm⟩

theorem mem_insertTicket {x t : Ticket} :
    ∀ {l : List Ticket}, x ∈ insertTicket t l ↔ x = t ∨ x ∈ l
  | [] => by simp [insertTicket]
  | u :: us => by
    simp only [insertTicket]
    split_ifs with h
    · simp [List.mem_cons]
    · simp [List.mem_cons, mem_insertTicket (l := us)]
      tauto

theorem pairwise_insertTicket {t : Ticket} :
    ∀ {l : List Ticket}, List.Pairwise tkLe l → List.Pairwise tkLe (insertTicket t l)
  | [], _ => by simp [insertTicket]
  | u :: us, h => by
    rcases List.pairwise_cons.1 h with ⟨hu, hus⟩
    simp only [insertTicket]
    split_ifs with hc
    · refine List.pairwise_cons.2 ⟨?_, h⟩
      intro v hv
      rcases List.mem_cons.1 hv with rfl | hv
      · exact hc
      · exact tkLe_trans hc (hu v hv)
    · refine List.pairwise_cons.2 ⟨?_, pairwise_insertTicket hus⟩
      intro v hv
      rcases mem_insertTicket.1 hv with rfl | hv
      · rcases tkLe_total u v with h0 | h0
        · exact h0
        · exact absurd h0 hc
      · exact hu v hv

theorem insertTicket_perm (t : Ticket) :
    ∀ l : List Ticket, List.Perm (insertTicket t l) (t :: l)
  | [] => by simp [insertTicket]
  | u :: us => by
    simp only [insertTicket]
    split_ifs with h
    · exact List.Perm.refl _
    · exact ((insertTicket_perm t us).cons u).trans (List.Perm.swap t u us)

theorem sortTickets_pairwise : ∀ l : List Ticket, List.Pairwise tkLe (sortTickets l)
  | [] => List.Pairwise.nil
  | t :: ts => pairwise_insertTicket (sortTickets_pairwise ts)

theorem sortTickets_perm : ∀ l : List Ticket, List.Perm (sortTickets l) l
  | [] => List.Perm.refl _
  | t :: ts => (insertTicket_perm t (sortTickets ts)).trans ((sortTickets_perm ts).cons t)

theorem sortTickets_pairwise_lt {l : List Ticket}
    (h : List.Pairwise (fun x y => ¬(x.not_before = y.not_before ∧ x.name = y.name)) l) :
    List.Pairwise tkLt (sortTickets l) := by
  have hd : List.Pairwise (fun x y : Ticket => ¬(x.not_before = y.not_before ∧ x.name = y.name))
      (sortTickets l) :=
    ((sortTickets_perm l).pairwise_iff (fun hxy hc => hxy ⟨hc.1.symm, hc.2.symm⟩)).2 h
  exact ((sortTickets_pairwise l).and hd).imp fun hxy => tkLt_of_tkLe_of_ne hxy.1 hxy.2

theorem hexVal_hexDigit : ∀ n < 16, hexVal? (hexDigit n) = some n := by decide

theorem decVal_hexDigit : ∀ n < 10, decVal? (hexDigit n) = some n := by decide

theorem hexDigit_ne_nl (n : Nat) : hexDigit n ≠ nlChar := by
  rcases Nat.lt_or_ge n 16 with h | h
  · revert h
    revert n
    decide
  · unfold hexDigit
    rw [List.getD_eq_default]
    · decide
    · exact le_trans (by decide) h

theorem hexEncode_length : ∀ bs : List Nat, (hexEncode bs).length = 2 * bs.length
  | [] => rfl
  | b :: bs => by simp [hexEncode, hexEncode_length bs]; omega

theorem hexEncode_append : ∀ a b : List Nat, hexEncode (a ++ b) = hexEncode a ++ hexEncode b
  | [], _ => rfl
  | x :: xs, b => by simp [hexEncode, hexEncode_append xs b]

theorem hexDecode_hexEncode : ∀ bs : List Nat, (∀ b ∈ bs, b < 256) →
    hexDecode (hexEncode bs) = some bs
  | [], _ => rfl
  | b :: bs, h => by
    have hb : b < 256 := h b (List.mem_cons_self b bs)
    have h1 : b / 16 < 16 := by omega
    have h2 : b % 16 < 16 := Nat.mod_lt _ (by omega)
    simp only [hexEncode, hexDecode, hexVal_hexDigit _ h1, hexVal_hexDigit _ h2,
      hexDecode_hexEncode bs (fun x hx => h x (List.mem_cons_of_mem b hx))]
    congr 1
    congr 1
    omega

theorem nl_not_mem_hexEncode (bs : List Nat) : nlChar ∉ hexEncode bs := by
  induction bs with
  | nil => simp [hexEncode]
  | cons b bs ih =>
    simp only [hexEncode, List.mem_cons]
    push_neg
    exact ⟨(hexDigit_ne_nl _).symm ∘ Eq.symm ∘ Eq.symm,
      ⟨fun h => (hexDigit_ne_nl _) h.symm, ih⟩⟩

theorem natToDecAux_extra : ∀ n f1 f2, n < f1 → n < f2 → natToDecAux f1 n = natToDecAux f2 n := by
  intro n
  induction n using Nat.strong_induction_on with
  | _ n ih =>
    intro f1 f2 h1 h2
    rcases f1 with _ | g1
    · omega
    · rcases f2 with _ | g2
      · omega
      · simp only [natToDecAux]
        split_ifs with h
        · rfl
        · rw [ih (n / 10) (Nat.div_lt_self (by omega) (by omega)) g1 g2 (by omega) (by omega)]

theorem natToDec_eq (n : Nat) :
    natToDec n = if n < 10 then [hexDigit n] else natToDec (n / 10) ++ [hexDigit (n % 10)] := by
  show natToDecAux (n + 1) n = _
  simp only [natToDecAux]
  split_ifs with h
  · rfl
  · rw [natToDecAux_extra (n / 10) n (n / 10 + 1) (Nat.div_lt_self (by omega) (by omega))
      (by omega)]
    rfl

theorem natToDec_ne_nil (n : Nat) : natToDec n ≠ [] := by
  rw [natToDec_eq]
  split_ifs
  · simp
  · simp

theorem nl_not_mem_natToDec (n : Nat) : nlChar ∉ natToDec n := by
  induction n using Nat.strong_induction_on with
  | _ n ih =>
    rw [natToDec_eq]
    split_ifs with h
    · simp
      exact fun hc => hexDigit_ne_nl n hc.symm
    · simp only [List.mem_append, List.mem_singleton]
      push_neg
      refine ⟨ih (n / 10) (Nat.div_lt_self (by omega) (by omega)), ?_⟩
      exact fun hc => hexDigit_ne_nl (n % 10) hc.symm

theorem decGo_natToDec (n : Nat) : ∀ acc r,
    decGo (natToDec n ++ r) acc = decGo r (acc * 10 ^ (natToDec n).length + n) := by
  induction n using Nat.strong_induction_on with
  | _ n ih =>
    intro acc r
    rw [natToDec_eq]
    split_ifs with h
    · simp only [List.length_singleton, List.cons_append, List.nil_append, decGo,
        decVal_hexDigit _ h, pow_one]
      rfl
    · have hdiv : n / 10 < n := Nat.div_lt_self (by omega) (by omega)
      have hmod : n % 10 < 10 := Nat.mod_lt _ (by omega)
      rw [List.append_assoc, ih (n / 10) hdiv acc, List.length_append]
      simp only [List.cons_append, List.nil_append, decGo, decVal_hexDigit _ hmod,
        List.length_singleton]
      congr 1
      have hpow : (10 : Nat) ^ ((natToDec (n / 10)).length + 1) =
          10 ^ (natToDec (n / 10)).length * 10 := pow_succ 10 _
      have hdm : 10 * (n / 10) + n % 10 = n := Nat.div_add_mod n 10
      rw [hpow]
      ring_nf
      omega

theorem decToNat_natToDec (n : Nat) : decToNat? (natToDec n) = some n := by
  have h := decGo_natToDec n 0 []
  rw [List.append_nil] at h
  rcases hne : natToDec n with _ | ⟨c, r⟩
  · exact absurd hne (natToDec_ne_nil n)
  · rw [hne] at h
    show decGo (c :: r) 0 = some n
    rw [h]
    simp [decGo]

theorem natToDec_length_le : ∀ k, 1 ≤ k → ∀ n, n < 10 ^ k → (natToDec n).length ≤ k := by
  intro k hk n
  induction n using Nat.strong_induction_on generalizing k with
  | _ n ih =>
    intro hn
    rw [natToDec_eq]
    split_ifs with h
    · simpa using hk
    · have hdiv : n / 10 < n := Nat.div_lt_self (by omega) (by omega)
      have hk2 : 2 ≤ k := by
        by_contra hc
        interval_cases k
        omega
      have hlt : n / 10 < 10 ^ (k - 1) := by
        have : 10 ^ (k - 1) * 10 = 10 ^ k := by
          rw [← pow_succ]
          congr 1
          omega
        rw [Nat.div_lt_iff_lt_mul (by omega)]
        omega
      have := ih (n / 10) hdiv (k - 1) (by omega) hlt
      rw [List.length_append, List.length_singleton]
      omega

theorem take_append_self : ∀ (a b : List α), (a ++ b).take a.length = a
  | [], _ => rfl
  | x :: xs, b => by simp [take_append_self xs b]

theorem drop_append_self : ∀ (a b : List α), (a ++ b).drop a.length = b
  | [], _ => rfl
  | x :: xs, b => by simp [drop_append_self xs b]

theorem takeLine_append : ∀ (v r : List Char), nlChar ∉ v →
    takeLine (v ++ nlChar :: r) = some (v, r)
  | [], r, _ => by simp [takeLine]
  | c :: cs, r, h => by
    have hc : ¬c = nlChar := fun hc => h (hc ▸ List.mem_cons_self c cs)
    have ih := takeLine_append cs r (fun hm => h (List.mem_cons_of_mem c hm))
    show takeLine (c :: (cs ++ nlChar :: r)) = some (c :: cs, r)
    simp only [takeLine, if_neg hc, ih, Option.map_some']

theorem expectLit_append : ∀ (p s : List Char), expectLit p (p ++ s) = some s
  | [], s => rfl
  | c :: ps, s => by simp [expectLit, expectLit_append ps s]

/-- Fields of a raw entry contain no newline. -/
abbrev noNLEntry (e : RawEntry) : Prop :=
  nlChar ∉ e.nameF ∧ nlChar ∉ e.cipherF ∧ nlChar ∉ e.hashF ∧ nlChar ∉ e.keyF ∧
    nlChar ∉ e.notBeforeF ∧ nlChar ∉ e.notAfterF

theorem parseEntryText_renderRaw (e : RawEntry) (rest : List Char) (h : noNLEntry e) :
    parseEntryText (renderRaw e ++ rest) = some (e, rest) := by
  obtain ⟨h1, h2, h3, h4, h5, h6⟩ := h
  unfold renderRaw
  simp only [List.append_assoc, List.cons_append]
  unfold parseEntryText
  rw [expectLit_append]
  simp only [Option.some_bind]
  rw [takeLine_append _ _ h1]
  simp only [Option.some_bind]
  rw [expectLit_append]
  simp only [Option.some_bind]
  rw [takeLine_append _ _ h2]
  simp only [Option.some_bind]
  rw [expectLit_append]
  simp only [Option.some_bind]
  rw [takeLine_append _ _ h3]
  simp only [Option.some_bind]
  rw [expectLit_append]
  simp only [Option.some_bind]
  rw [takeLine_append _ _ h4]
  simp only [Option.some_bind]
  rw [expectLit_append]
  simp only [Option.some_bind]
  rw [takeLine_append _ _ h5]
  simp only [Option.some_bind]
  rw [expectLit_append]
  simp only [Option.some_bind]
  rw [takeLine_append _ _ h6]
  rfl

theorem renderRaw_length_pos (e : RawEntry) : 0 < (renderRaw e).length := by
  unfold renderRaw
  simp [List.length_append, lit1]

theorem listFlat_renderRaw_length : ∀ es : List RawEntry,
    es.length ≤ (listFlat renderRaw es).length
  | [] => Nat.le_refl 0
  | e :: es => by
    simp only [listFlat, List.length_append, List.length_cons]
    have h1 := renderRaw_length_pos e
    have h2 := listFlat_renderRaw_length es
    omega

theorem parseDocTextGo_flat : ∀ (es : List RawEntry) (fuel : Nat), es.length ≤ fuel →
    (∀ e ∈ es, noNLEntry e) → parseDocTextGo fuel (listFlat renderRaw es) = some es
  | [], fuel, _, _ => by
    cases fuel <;> rfl
  | e :: es, fuel, hfuel, hnl => by
    rcases fuel with _ | f
    · simp at hfuel
    · have hne : noNLEntry e := hnl e (List.mem_cons_self e es)
      have hrec : parseDocTextGo f (listFlat renderRaw es) = some es :=
        parseDocTextGo_flat es f
          (by simp only [List.length_cons] at hfuel; omega)
          fun x hx => hnl x (List.mem_cons_of_mem e hx)
      have hpos := renderRaw_length_pos e
      rcases hflat : renderRaw e ++ listFlat renderRaw es with _ | ⟨c, cs⟩
      · exfalso
        have hlen : (renderRaw e ++ listFlat renderRaw es).length = 0 := by
          rw [hflat]
          rfl
        rw [List.length_append] at hlen
        omega
      · show parseDocTextGo (f + 1) (listFlat renderRaw (e :: es)) = some (e :: es)
        have hflat2 : listFlat renderRaw (e :: es) = c :: cs := hflat
        rw [hflat2]
        show (parseEntryText (c :: cs)).bind
            (fun p => (parseDocTextGo f p.2).map (p.1 :: ·)) = some (e :: es)
        rw [← hflat2]
        show (parseEntryText (renderRaw e ++ listFlat renderRaw es)).bind
            (fun p => (parseDocTextGo f p.2).map (p.1 :: ·)) = some (e :: es)
        rw [parseEntryText_renderRaw e _ hne]
        simp only [Option.some_bind, hrec, Option.map_some']

theorem parseDocText_flat (es : List RawEntry) (hnl : ∀ e ∈ es, noNLEntry e) :
    parseDocText (listFlat renderRaw es) = some es :=
  parseDocTextGo_flat es _ (listFlat_renderRaw_length es) hnl

theorem cipher_table_resolve {c : CipherSpec} (h : EVP_get_cipherbyname c.sn = some c) :
    c = EVP_aes_256_cbc := by
  unfold EVP_get_cipherbyname evpCipherTable at h
  have hmem := List.mem_of_find?_eq_some h
  simpa using hmem

theorem md_table_resolve {m : MdSpec} (h : EVP_get_digestbyname m.sn = some m) :
    m = EVP_sha256 := by
  unfold EVP_get_digestbyname evpMdTable at h
  have hmem := List.mem_of_find?_eq_some h
  simpa using hmem

theorem rawOf_noNL (t : Ticket) (h : wfTicket t) : noNLEntry (rawOf t) := by
  obtain ⟨_, _, _, _, _, _, _, _, hcip, hmd⟩ := h
  have hc := cipher_table_resolve hcip
  have hm := md_table_resolve hmd
  refine ⟨nl_not_mem_hexEncode _, ?_, ?_, nl_not_mem_hexEncode _,
    nl_not_mem_natToDec _, nl_not_mem_natToDec _⟩
  · show nlChar ∉ t.cipher.sn
    rw [hc]
    decide
  · show nlChar ∉ t.md.sn
    rw [hm]
    decide

theorem parse_ticket_entry_rawOf (t : Ticket) (h : wfTicket t) :
    parse_ticket_entry (rawOf t) = some t := by
  obtain ⟨hn16, hnb, hckl, hckb, hmkl, hmkb, hnbna, _hna64, hcip, hmd⟩ := h
  have hlen1 : (hexEncode t.name).length = 32 := by rw [hexEncode_length, hn16]
  have hdec1 : hexDecode (hexEncode t.name) = some t.name := hexDecode_hexEncode _ hnb
  have hkb : ∀ b ∈ t.cipherKey ++ t.macKey, b < 256 := by
    intro b hb
    rcases List.mem_append.1 hb with hb | hb
    exacts [hckb b hb, hmkb b hb]
  have hlen2 : (hexEncode (t.cipherKey ++ t.macKey)).length =
      (t.cipher.keyLen + t.md.blockSize) * 2 := by
    rw [hexEncode_length, List.length_append, hckl, hmkl]
    ring
  have hdec2 : hexDecode (hexEncode (t.cipherKey ++ t.macKey)) =
      some (t.cipherKey ++ t.macKey) := hexDecode_hexEncode _ hkb
  have htake : (t.cipherKey ++ t.macKey).take t.cipher.keyLen = t.cipherKey := by
    rw [← hckl]
    exact take_append_self _ _
  have hdrop : (t.cipherKey ++ t.macKey).drop t.cipher.keyLen = t.macKey := by
    rw [← hckl]
    exact drop_append_self _ _
  simp only [parse_ticket_entry, rawOf, hlen1, hdec1, hcip, hmd, hlen2, hdec2,
    decToNat_natToDec, htake, hdrop]
  simp [hnbna]

theorem mapO_parse_map : ∀ ts : List Ticket, wfStore ts →
    mapO parse_ticket_entry (ts.map rawOf) = some ts
  | [], _ => rfl
  | t :: ts, h => by
    have h1 := parse_ticket_entry_rawOf t (h t (List.mem_cons_self t ts))
    have h2 := mapO_parse_map ts fun x hx => h x (List.mem_cons_of_mem t hx)
    simp only [List.map_cons, mapO, h1, h2]

theorem listFlat_map_comp (f : β → List γ) (g : α → β) :
    ∀ l : List α, listFlat f (l.map g) = listFlat (fun a => f (g a)) l
  | [] => rfl
  | a :: as => by simp only [List.map_cons, listFlat, listFlat_map_comp f g as]

theorem parse_docOf (ts : List Ticket) (h : wfStore ts) : parse_tickets (docOf ts) = some ts := by
  have hdoc : docOf ts = listFlat renderRaw (ts.map rawOf) := by
    rw [listFlat_map_comp]
    rfl
  unfold parse_tickets
  rw [hdoc, parseDocText_flat]
  · simp only [Option.some_bind]
    exact mapO_parse_map ts h
  · intro e he
    rcases List.mem_map.1 he with ⟨t, ht, rfl⟩
    exact rawOf_noNL t (h t ht)

theorem serialize_ticket_entry_length_le (t : Ticket) (h : wfTicket t) :
    (serialize_ticket_entry t).length ≤ 1023 := by
  obtain ⟨hn16, _, hckl, _, hmkl, _, hnbna, hna64, hcip, hmd⟩ := h
  have hc := cipher_table_resolve hcip
  have hm := md_table_resolve hmd
  have hd1 : (natToDec t.not_before).length ≤ 20 := by
    refine natToDec_length_le 20 (by omega) _ ?_
    have : u64Mod ≤ 10 ^ 20 := by decide
    have : t.not_before ≤ t.not_after := hnbna
    unfold u64Mod at hna64
    omega
  have hd2 : (natToDec t.not_after).length ≤ 20 := by
    refine natToDec_length_le 20 (by omega) _ ?_
    have : u64Mod ≤ 10 ^ 20 := by decide
    unfold u64Mod at hna64
    omega
  unfold serialize_ticket_entry renderRaw rawOf
  simp only [List.length_append, List.length_cons, List.length_nil, hexEncode_length,
    hn16, hckl, hmkl, hc, hm]
  have hl1 : lit1.length = 8 := by decide
  have hl2 : lit2.length = 10 := by decide
  have hl3 : lit3.length = 8 := by decide
  have hl4 : lit4.length = 7 := by decide
  have hl5 : lit5.length = 14 := by decide
  have hl6 : lit6.length = 13 := by decide
  have hsn1 : EVP_aes_256_cbc.sn.length = 11 := by decide
  have hsn2 : EVP_sha256.sn.length = 6 := by decide
  have hkl : EVP_aes_256_cbc.keyLen = 32 := by decide
  have hbs : EVP_sha256.blockSize = 64 := by decide
  rw [hl1, hl2, hl3, hl4, hl5, hl6, hsn1, hsn2, hkl, hbs]
  omega

theorem listFlat_congr {f g : α → List β} : ∀ l : List α, (∀ a ∈ l, f a = g a) →
    listFlat f l = listFlat g l
  | [], _ => rfl
  | a :: as, h => by
    simp only [listFlat, h a (List.mem_cons_self a as),
      listFlat_congr as fun x hx => h x (List.mem_cons_of_mem a hx)]

theorem serialize_tickets_wf (ts : List Ticket) (h : wfStore ts) :
    serialize_tickets ts = some (docOf ts) := by
  unfold serialize_tickets
  rw [if_pos]
  · unfold docOf
    congr 1
    refine listFlat_congr ts fun t ht => ?_
    unfold writtenEntry
    rw [if_pos (serialize_ticket_entry_length_le t (h t ht))]
  · intro t ht
    exact le_trans (serialize_ticket_entry_length_le t (h t ht)) (by omega)

theorem add64_eq {x y : Nat} (h : x + y < u64Mod) : add64 x y = x + y := Nat.mod_eq_of_lt h

theorem sub64_one {v : Nat} (h1 : 1 ≤ v) (h2 : v < u64Mod) : sub64 v 1 = v - 1 := by
  unfold sub64
  have hv : v + u64Mod - 1 = u64Mod + (v - 1) := by omega
  rw [hv, Nat.add_mod_left]
  exact Nat.mod_eq_of_lt (by omega)

theorem findNamed_none_iff : ∀ (store : List Ticket) (kn : List Nat),
    findNamed store kn = none ↔ ∀ t ∈ store, t.name ≠ kn
  | [], kn => by simp [findNamed]
  | u :: us, kn => by
    simp only [findNamed]
    split_ifs with h
    · constructor
      · intro hsome
        exact absurd hsome (by simp)
      · intro hall
        exact absurd ((memcmp_eq_zero_iff _ _).1 h) (hall u (List.mem_cons_self u us))
    · rw [Option.map_eq_none', findNamed_none_iff us kn]
      constructor
      · intro hall t ht
        rcases List.mem_cons.1 ht with rfl | ht
        · exact fun he => h ((memcmp_eq_zero_iff _ _).2 he)
        · exact hall t ht
      · intro hall t ht
        exact hall t (List.mem_cons_of_mem u ht)

theorem findNamed_some : ∀ (store : List Ticket) (kn : List Nat) (i : Nat) (t : Ticket),
    findNamed store kn = some (i, t) → store[i]? = some t ∧ t.name = kn
  | [], _, _, _, h => by simp [findNamed] at h
  | u :: us, kn, i, t, h => by
    simp only [findNamed] at h
    split_ifs at h with hc
    · simp only [Option.some.injEq, Prod.mk.injEq] at h
      rcases h with ⟨rfl, rfl⟩
      exact ⟨by simp, (memcmp_eq_zero_iff _ _).1 hc⟩
    · rcases Option.map_eq_some'.1 h with ⟨⟨j, s⟩, hj, hpair⟩
      simp only [Prod.mk.injEq] at hpair
      rcases hpair with ⟨rfl, rfl⟩
      have hrec := findNamed_some us kn j s hj
      exact ⟨by simpa using hrec.1, hrec.2⟩

theorem tkLt_nb_le {x y : Ticket} (h : tkLt x y) : y.not_before ≤ x.not_before := by
  rcases h with h | ⟨he, _⟩
  · omega
  · omega

theorem pruneExpired_sublist (ts : List Ticket) (now : Nat) :
    (pruneExpired ts now).Sublist ts := by
  unfold pruneExpired
  have h1 : (ts.reverse.dropWhile fun t => decide (t.not_after < now)).Sublist ts.reverse :=
    List.dropWhile_sublist _
  have h2 := h1.reverse
  rwa [List.reverse_reverse] at h2

theorem tick_pairwise_lt (gen : GeneratingConf) (store : List Ticket) (now : Nat) (fresh : Rnd)
    (hp : List.Pairwise tkLt store) (hl : 4 ≤ gen.lifetime)
    (hov : newestNotBefore store + gen.lifetime / 4 < u64Mod) :
    List.Pairwise tkLt (ticket_internal_updater_tick gen store now fresh) := by
  have hq : 1 ≤ gen.lifetime / 4 := by
    have := Nat.div_le_div_right (c := 4) hl
    simpa using this
  have hAfter : List.Pairwise tkLt
      (if add64 (newestNotBefore store) (gen.lifetime / 4) ≤ now then
        new_ticket gen.cipher gen.md now (sub64 (add64 now gen.lifetime) 1) fresh :: store
      else store) := by
    split_ifs with hc
    · rw [add64_eq hov] at hc
      refine List.pairwise_cons.2 ⟨?_, hp⟩
      intro t ht
      left
      show t.not_before < now
      rcases store with _ | ⟨s0, rest⟩
      · simp at ht
      · have hnb0 : newestNotBefore (s0 :: rest) = s0.not_before := rfl
        have ht0 : t.not_before ≤ s0.not_before := by
          rcases List.mem_cons.1 ht with rfl | ht
          · exact le_refl _
          · exact tkLt_nb_le ((List.pairwise_cons.1 hp).1 t ht)
        rw [hnb0] at hc
        omega
    · exact hp
  have hun : ticket_internal_updater_tick gen store now fresh =
      if oldestNotAfter store < now then
        pruneExpired
          (if add64 (newestNotBefore store) (gen.lifetime / 4) ≤ now then
            new_ticket gen.cipher gen.md now (sub64 (add64 now gen.lifetime) 1) fresh :: store
          else store) now
      else
        (if add64 (newestNotBefore store) (gen.lifetime / 4) ≤ now then
          new_ticket gen.cipher gen.md now (sub64 (add64 now gen.lifetime) 1) fresh :: store
        else store) := rfl
  rw [hun]
  by_cases hg : oldestNotAfter store < now
  · rw [if_pos hg]
    exact hAfter.sublist (pruneExpired_sublist _ _)
  · rw [if_neg hg]
    exact hAfter

theorem tick_namesDistinct (gen : GeneratingConf) (store : List Ticket) (now : Nat) (fresh : Rnd)
    (hn : namesDistinct store) (hf : fresh.name ∉ store.map Ticket.name) :
    namesDistinct (ticket_internal_updater_tick gen store now fresh) := by
  have hAfter : namesDistinct
      (if add64 (newestNotBefore store) (gen.lifetime / 4) ≤ now then
        new_ticket gen.cipher gen.md now (sub64 (add64 now gen.lifetime) 1) fresh :: store
      else store) := by
    split_ifs with hc
    · exact List.Nodup.cons hf hn
    · exact hn
  have hun : ticket_internal_updater_tick gen store now fresh =
      if oldestNotAfter store < now then
        pruneExpired
          (if add64 (newestNotBefore store) (gen.lifetime / 4) ≤ now then
            new_ticket gen.cipher gen.md now (sub64 (add64 now gen.lifetime) 1) fresh :: store
          else store) now
      else
        (if add64 (newestNotBefore store) (gen.lifetime / 4) ≤ now then
          new_ticket gen.cipher gen.md now (sub64 (add64 now gen.lifetime) 1) fresh :: store
        else store) := rfl
  rw [hun]
  by_cases hg : oldestNotAfter store < now
  · rw [if_pos hg]
    exact ((pruneExpired_sublist _ _).map Ticket.name).nodup hAfter
  · rw [if_neg hg]
    exact hAfter

theorem reconcileCore_installed {key : List Char} {gen : GeneratingConf} {sorted : List Ticket}
    {wasNotFound : Bool} {cas now : Nat} {fresh : Rnd} {ts : List Ticket}
    (h : (reconcileCore key gen sorted wasNotFound cas now fresh).installed = some ts) :
    ts = sorted := by
  simp only [reconcileCore] at h
  by_cases hc : ¬(find_ticket_for_encryption sorted now).isSome = true ∨
      add64 (newestNotBefore sorted) (gen.lifetime / 4) < now
  · rw [if_pos hc] at h
    exact Option.noConfusion h
  · rw [if_neg hc] at h
    exact (Option.some.inj h).symm

theorem update_ok_eq (key : List Char) (gen : GeneratingConf) (data : List Char) (cas now : Nat)
    (fresh : Rnd) :
    ticket_memcached_update_tickets key gen (.ok data cas) now fresh =
      (match parse_tickets data with
      | none => { retry := false, installed := none, ops := [.get key] }
      | some ts => reconcileCore key gen (sortTickets ts) false cas now fresh) := rfl

theorem reconcile_installed_sorted {key : List Char} {gen : GeneratingConf} {fetch : FetchStatus}
    {now : Nat} {fresh : Rnd} {ts : List Ticket}
    (h : (ticket_memcached_update_tickets key gen fetch now fresh).installed = some ts) :
    List.Pairwise tkLe ts := by
  rcases fetch with ⟨data, cas⟩ | _ | cas
  · rw [update_ok_eq] at h
    cases hp : parse_tickets data with
    | none =>
      rw [hp] at h
      exact Option.noConfusion h
    | some parsed =>
      rw [hp] at h
      rw [reconcileCore_installed h]
      exact sortTickets_pairwise parsed
  · unfold ticket_memcached_update_tickets at h
    rw [reconcileCore_installed h]
    exact List.Pairwise.nil
  · unfold ticket_memcached_update_tickets at h
    rw [reconcileCore_installed h]
    exact List.Pairwise.nil

theorem free_ticket_mem_zero (hdr : List Nat) (t : Ticket)
    (h1 : t.cipherKey.length = t.cipher.keyLen) (h2 : t.macKey.length = t.md.blockSize) :
    free_ticket_mem hdr t =
      List.replicate (hdr.length + t.cipher.keyLen + t.md.blockSize) 0 := by
  unfold free_ticket_mem h2o_mem_set_secure ticketAlloc
  have hlen : (hdr ++ t.cipherKey ++ t.macKey).length =
      hdr.length + t.cipher.keyLen + t.md.blockSize := by
    simp [List.length_append, h1, h2]
    omega
  rw [hlen, Nat.min_self]
  have hdrop : (hdr ++ t.cipherKey ++ t.macKey).drop
      (hdr.length + t.cipher.keyLen + t.md.blockSize) = [] := by
    rw [← hlen]
    exact List.drop_length _
  rw [hdrop, List.append_nil]

theorem tick_eq (gen : GeneratingConf) (store : List Ticket) (now : Nat) (fresh : Rnd) :
    ticket_internal_updater_tick gen store now fresh =
      if oldestNotAfter store < now then
        pruneExpired
          (if add64 (newestNotBefore store) (gen.lifetime / 4) ≤ now then
            new_ticket gen.cipher gen.md now (sub64 (add64 now gen.lifetime) 1) fresh :: store
          else store) now
      else
        if add64 (newestNotBefore store) (gen.lifetime / 4) ≤ now then
          new_ticket gen.cipher gen.md now (sub64 (add64 now gen.lifetime) 1) fresh :: store
        else store := rfl

theorem reconcileCore_ops_key (key : List Char) (gen : GeneratingConf) (sorted : List Ticket)
    (w : Bool) (cas now : Nat) (fresh : Rnd) :
    ∀ op ∈ (reconcileCore key gen sorted w cas now fresh).ops, mcOpKey op = key := by
  intro op hop
  simp only [reconcileCore] at hop
  by_cases hc : ¬(find_ticket_for_encryption sorted now).isSome = true ∨
      add64 (newestNotBefore sorted) (gen.lifetime / 4) < now
  · rw [if_pos hc] at hop
    rcases List.mem_cons.1 hop with rfl | hop2
    · rfl
    · rcases List.mem_cons.1 hop2 with rfl | hop3
      · cases w
        · rfl
        · rfl
      · exact absurd hop3 (List.not_mem_nil op)
  · rw [if_neg hc] at hop
    rcases List.mem_cons.1 hop with rfl | hop2
    · rfl
    · exact absurd hop2 (List.not_mem_nil op)

theorem update_ops_key (key : List Char) (gen : GeneratingConf) (fetch : FetchStatus)
    (now : Nat) (fresh : Rnd) :
    ∀ op ∈ (ticket_memcached_update_tickets key gen fetch now fresh).ops, mcOpKey op = key := by
  intro op hop
  rcases fetch with ⟨data, cas⟩ | _ | cas
  · rw [update_ok_eq] at hop
    cases hp : parse_tickets data with
    | none =>
      rw [hp] at hop
      rcases List.mem_cons.1 hop with rfl | h
      · rfl
      · exact absurd h (List.not_mem_nil op)
    | some parsed =>
      rw [hp] at hop
      exact reconcileCore_ops_key key gen (sortTickets parsed) false cas now fresh op hop
  · exact reconcileCore_ops_key key gen [] true 0 now fresh op hop
  · exact reconcileCore_ops_key key gen [] false cas now fresh op hop

theorem free_ticket_regions (hdr : List Nat) (t : Ticket)
    (h1 : t.cipherKey.length = t.cipher.keyLen) (h2 : t.macKey.length = t.md.blockSize) :
    ((free_ticket_mem hdr t).drop hdr.length).take t.cipher.keyLen =
        List.replicate t.cipher.keyLen 0 ∧
      ((free_ticket_mem hdr t).drop (hdr.length + t.cipher.keyLen)).take t.md.blockSize =
        List.replicate t.md.blockSize 0 := by
  rw [free_ticket_mem_zero hdr t h1 h2]
  constructor
  · rw [List.drop_replicate, List.take_replicate]
    congr 1
    omega
  · rw [List.drop_replicate, List.take_replicate]
    congr 1
    omega

/-- C1 (counterexample): with the default configured prefix
`":h2o:ssl-resumption:"`, the first memcached operation of a cluster-rotator
pass is a GET on the literal `"h2o:session-tickets"`, which is not
`<prefix> ++ "session-tickets"` — so the rotator does not key its operations
by prepending the configured prefix. -/
theorem c1_counterexample :
    ((ticket_memcached_updater_pass defaultMemcachedConf gen3600 .notfound 5
          exRnd).result.ops.map mcOpKey).head? = some sessionTicketsLiteral ∧
      sessionTicketsLiteral ≠ defaultMemcachedConf.prefixStr ++ "session-tickets".data := by
  exact ⟨by decide, by decide⟩

/-- C1 (amended): the cluster rotator performs every GET/ADD/SET for the
ticket-key store against the constant memcached key "h2o:session-tickets",
for every memcached configuration; the configured prefix is not applied to
this key (it namespaces only the session-ID cache client). -/
theorem c1_fixed_key (mc : MemcachedConf) (gen : GeneratingConf) (fetch : FetchStatus)
    (now : Nat) (fresh : Rnd) :
    ∀ op ∈ (ticket_memcached_updater_pass mc gen fetch now fresh).result.ops,
      mcOpKey op = sessionTicketsLiteral := by
  intro op hop
  exact update_ops_key sessionTicketsLiteral gen fetch now fresh op hop

/-- C1 witness: the GET of a concrete pass is on the fixed key. -/
theorem c1_fixed_key_witness :
    McOp.get sessionTicketsLiteral ∈
        (ticket_memcached_updater_pass defaultMemcachedConf gen3600 .notfound 5
          exRnd).result.ops ∧
      mcOpKey (McOp.get sessionTicketsLiteral) = sessionTicketsLiteral :=
  ⟨by decide,
    c1_fixed_key defaultMemcachedConf gen3600 .notfound 5 exRnd
      (McOp.get sessionTicketsLiteral) (by decide)⟩

/-- C4 (counterexample): for the claimed store (`not_before = now - 900`,
`not_after = now + 2699`, lifetime 3600) a tick at `now = 1000000` inserts a
key at index 0 — the `≤` comparison mints at equality, while the claim says
no insertion happens. -/
theorem c4_counterexample :
    ticket_internal_updater_tick gen3600 [c4k] 1000000 exRnd =
        [new_ticket EVP_aes_256_cbc EVP_sha256 1000000 1003599 exRnd, c4k] ∧
      ticket_internal_updater_tick gen3600 [c4k] 1000000 exRnd ≠ [c4k] := by
  exact ⟨by decide, by decide⟩

/-- C4 (amended): for a store containing one key with
`not_before = now - 900`, `not_after = now + 2699`, and lifetime 3600, a
tick at `now - 1` performs no insertion, and a tick at `now` performs
exactly one insertion at index 0 (the code mints when
`newest.not_before + lifetime/4 ≤ now`, which holds at equality). -/
theorem c4_rotation_cadence (now : Nat) (h1 : 900 ≤ now) (h2 : now + 3600 < u64Mod)
    (name ck mk : List Nat) (fresh : Rnd) :
    ticket_internal_updater_tick gen3600
        [⟨name, EVP_aes_256_cbc, ck, EVP_sha256, mk, now - 900, now + 2699⟩] (now - 1) fresh =
      [⟨name, EVP_aes_256_cbc, ck, EVP_sha256, mk, now - 900, now + 2699⟩] ∧
    ticket_internal_updater_tick gen3600
        [⟨name, EVP_aes_256_cbc, ck, EVP_sha256, mk, now - 900, now + 2699⟩] now fresh =
      [new_ticket gen3600.cipher gen3600.md now (now + 3599) fresh,
        ⟨name, EVP_aes_256_cbc, ck, EVP_sha256, mk, now - 900, now + 2699⟩] := by
  have hadd : add64 (now - 900) 900 = now := by
    rw [add64_eq (by omega)]
    omega
  constructor
  · rw [tick_eq]
    rw [if_neg (show ¬ oldestNotAfter
        [⟨name, EVP_aes_256_cbc, ck, EVP_sha256, mk, now - 900, now + 2699⟩] < now - 1 by
      show ¬ now + 2699 < now - 1
      omega)]
    rw [if_neg]
    show ¬ add64 (now - 900) 900 ≤ now - 1
    rw [hadd]
    omega
  · rw [tick_eq]
    rw [if_neg (show ¬ oldestNotAfter
        [⟨name, EVP_aes_256_cbc, ck, EVP_sha256, mk, now - 900, now + 2699⟩] < now by
      show ¬ now + 2699 < now
      omega)]
    rw [if_pos (show add64 (newestNotBefore
        [⟨name, EVP_aes_256_cbc, ck, EVP_sha256, mk, now - 900, now + 2699⟩])
        (gen3600.lifetime / 4) ≤ now by
      show add64 (now - 900) 900 ≤ now
      rw [hadd])]
    have hna : sub64 (add64 now gen3600.lifetime) 1 = now + 3599 := by
      show sub64 (add64 now 3600) 1 = now + 3599
      rw [add64_eq (by omega), sub64_one (by omega) (by omega)]
      omega
    rw [hna]

/-- C4 witness: the amended statement evaluated at `now = 1000000`. -/
theorem c4_rotation_cadence_witness :
    900 ≤ 1000000 ∧ 1000000 + 3600 < u64Mod ∧
      ticket_internal_updater_tick gen3600 [c4k] 1000000 exRnd =
        [new_ticket gen3600.cipher gen3600.md 1000000 1003599 exRnd, c4k] :=
  ⟨by decide, by decide,
    (c4_rotation_cadence 1000000 (by decide) (by decide) (List.range 16)
      (List.replicate 32 2) (List.replicate 64 3) exRnd).2⟩

/-- C5: the decrypt-side ticket callback returns 0 and leaves both contexts
untouched when no stored key's name equals the presented `key_name`; when a
key matches (the linear search finds index `i`), it initializes the cipher
and MAC contexts from that key's secrets and returns 1 if the match is at
index 0, else 2; the search succeeds whenever some stored key carries the
name. -/
theorem c5_decrypt_callback (store : List Ticket) (kn : List Nat) :
    ((∀ t ∈ store, t.name ≠ kn) → ticket_key_callback_dec store kn = ⟨0, none, none⟩) ∧
    (∀ i t, findNamed store kn = some (i, t) →
        store[i]? = some t ∧ t.name = kn ∧
        ticket_key_callback_dec store kn =
          ⟨if i = 0 then 1 else 2, some (t.cipher, t.cipherKey), some (t.md, t.macKey)⟩) ∧
    ((∃ t ∈ store, t.name = kn) → (findNamed store kn).isSome) := by
  refine ⟨?_, ?_, ?_⟩
  · intro h
    unfold ticket_key_callback_dec
    rw [(findNamed_none_iff store kn).2 h]
  · intro i t h
    obtain ⟨hget, hname⟩ := findNamed_some store kn i t h
    refine ⟨hget, hname, ?_⟩
    unfold ticket_key_callback_dec
    rw [h]
  · rintro ⟨t, ht, hname⟩
    cases hf : findNamed store kn with
    | none => exact absurd hname (((findNamed_none_iff store kn).1 hf) t ht)
    | some p => rfl

/-- C5 witness: a two-key store; presenting the older key's name yields
return value 2 and that key's secrets. -/
theorem c5_decrypt_callback_witness :
    findNamed [exB, exA] exA.name = some (1, exA) ∧
      ticket_key_callback_dec [exB, exA] exA.name =
        ⟨2, some (exA.cipher, exA.cipherKey), some (exA.md, exA.macKey)⟩ :=
  ⟨by decide,
    ((c5_decrypt_callback [exB, exA] exA.name).2.1 1 exA (by decide)).2.2⟩

/-- C2 (counterexample): at `now = 2000` with lifetime 40, the fetched pair
holds a future key (not_before 2100, the sorted head) and a currently valid
key (not_before 1000) whose `not_before + lifetime/4 < now`; the claim's
condition demands a mint-and-retry, but the code tests `entries[0]` — which
is in the future — so the pass installs the fetched sequence and returns
`not retry`. -/
theorem c2_counterexample :
    find_ticket_for_encryption (sortTickets [c2k0, c2k1]) 2000 = some c2k1 ∧
      c2k1.not_before + gen40.lifetime / 4 < 2000 ∧
      (ticket_memcached_update_tickets sessionTicketsLiteral gen40
          (.ok (docOf [c2k0, c2k1]) 7) 2000 exRnd).retry = false ∧
      (ticket_memcached_update_tickets sessionTicketsLiteral gen40
          (.ok (docOf [c2k0, c2k1]) 7) 2000 exRnd).installed = some [c2k0, c2k1] := by
  exact ⟨by decide, by decide, by decide, by decide⟩

/-- C2 (amended): a reconcile pass parses and sorts the fetch (empty on a
miss); if a currently-valid key exists and the sorted sequence's FIRST key
satisfies `not_before + lifetime/4 ≥ now`, no key is minted — the fetched
sorted sequence is installed and the pass returns `not retry`; otherwise a
key is minted (`not_before = now + 60` if a valid key exists, else `now`;
`not_after = not_before + lifetime`), prepended, and written with ADD when
the GET missed, else with CAS SET; the pass then returns `retry`
irrespective of the write's response status (transport failures abort the
pass and reconnect, outside this model). -/
theorem c2_reconcile_pass :
    (∀ key gen data cas now fresh ts, parse_tickets data = some ts →
        ticket_memcached_update_tickets key gen (.ok data cas) now fresh =
          reconcileCore key gen (sortTickets ts) false cas now fresh) ∧
    (∀ key gen now fresh,
        ticket_memcached_update_tickets key gen .notfound now fresh =
          reconcileCore key gen [] true 0 now fresh) ∧
    (∀ key gen sorted wasNotFound cas now fresh tv,
        find_ticket_for_encryption sorted now = some tv →
        ¬ add64 (newestNotBefore sorted) (gen.lifetime / 4) < now →
        reconcileCore key gen sorted wasNotFound cas now fresh =
          { retry := false, installed := some sorted, ops := [.get key] }) ∧
    (∀ key gen sorted wasNotFound cas now fresh,
        (find_ticket_for_encryption sorted now = none ∨
            add64 (newestNotBefore sorted) (gen.lifetime / 4) < now) →
        reconcileCore key gen sorted wasNotFound cas now fresh =
          { retry := true, installed := none,
            ops := [.get key,
              if wasNotFound then
                .add key (serialize_tickets
                  (new_ticket gen.cipher gen.md
                      (if (find_ticket_for_encryption sorted now).isSome then add64 now 60
                        else now)
                      (add64
                        (if (find_ticket_for_encryption sorted now).isSome then add64 now 60
                          else now) gen.lifetime) fresh :: sorted))
              else
                .set key (serialize_tickets
                  (new_ticket gen.cipher gen.md
                      (if (find_ticket_for_encryption sorted now).isSome then add64 now 60
                        else now)
                      (add64
                        (if (find_ticket_for_encryption sorted now).isSome then add64 now 60
                          else now) gen.lifetime) fresh :: sorted)) cas] }) := by
  refine ⟨?_, ?_, ?_, ?_⟩
  · intro key gen data cas now fresh ts hp
    rw [update_ok_eq, hp]
  · intro key gen now fresh
    rfl
  · intro key gen sorted wasNotFound cas now fresh tv hfind hlt
    simp only [reconcileCore]
    rw [if_neg]
    intro hcon
    rcases hcon with hcon | hcon
    · rw [hfind] at hcon
      simp at hcon
    · exact hlt hcon
  · intro key gen sorted wasNotFound cas now fresh h
    simp only [reconcileCore]
    rw [if_pos]
    rcases h with h | h
    · left
      rw [h]
      simp
    · right
      exact h

/-- C2 witness: the install branch of the amended statement evaluated on a
concrete valid, not-yet-due sorted sequence. -/
theorem c2_reconcile_pass_witness :
    find_ticket_for_encryption [exB] 250 = some exB ∧
      ¬ add64 (newestNotBefore [exB]) (gen3600.lifetime / 4) < 250 ∧
      reconcileCore sessionTicketsLiteral gen3600 [exB] false 7 250 exRnd =
        { retry := false, installed := some [exB], ops := [.get sessionTicketsLiteral] } :=
  ⟨by decide, by decide,
    c2_reconcile_pass.2.2.1 sessionTicketsLiteral gen3600 [exB] false 7 250 exRnd exB
      (by decide) (by decide)⟩

/-- C3 (counterexample): for the unsorted two-key store `exUnsorted`,
parsing its serialization returns the store in its original (unsorted)
document order, not its sorted version — `parse_tickets` does not sort, the
callers do. -/
theorem c3_counterexample :
    (serialize_tickets exUnsorted).bind parse_tickets = some exUnsorted ∧
      sortTickets exUnsorted ≠ exUnsorted := by
  exact ⟨by decide, by decide⟩

/-- C3 (amended): for every well-formed store S, serialization succeeds and
parsing the serialization yields S itself (the parser preserves document
order; sorting is a separate step applied by the loaders), so
`parse(serialize(S)) = sort(S)` holds exactly when S is already sorted; and
serializing the parse of any document in canonical (sorted serialized) form
reproduces the document exactly. -/
theorem c3_roundtrip :
    (∀ ts, wfStore ts →
        serialize_tickets ts = some (docOf ts) ∧ parse_tickets (docOf ts) = some ts) ∧
    (∀ Y ts, wfStore ts → sortTickets ts = ts → serialize_tickets ts = some Y →
        (parse_tickets Y).bind serialize_tickets = some Y) := by
  constructor
  · exact fun ts h => ⟨serialize_tickets_wf ts h, parse_docOf ts h⟩
  · intro Y ts h _hsorted hser
    have hdoc : Y = docOf ts := by
      rw [serialize_tickets_wf ts h] at hser
      exact (Option.some.inj hser).symm
    subst hdoc
    rw [parse_docOf ts h]
    simpa using serialize_tickets_wf ts h

/-- C3 witness: the round trip evaluated on the concrete sorted store. -/
theorem c3_roundtrip_witness :
    wfStore exSorted ∧ parse_tickets (docOf exSorted) = some exSorted :=
  ⟨by decide, (c3_roundtrip.1 exSorted (by decide)).2⟩

/-- C6: when no encryption-eligible key exists (in particular on the empty
store), the encrypt-side callback synthesizes an ephemeral AES-256-CBC /
SHA-256 key valid on `[0, UINT64_MAX]`, writes its 16-byte name to
`key_name`, initializes both contexts from its secrets, returns 1, passes
the key to `free_ticket` (whose wipe zeroes the whole allocation) without
installing it in the store, so a subsequent decrypt callback presenting that
`key_name` (absent a name collision; trivially so on the empty store)
returns not-found (0). -/
theorem c6_encrypt_fallback (store : List Ticket) (now : Nat) (fresh : Rnd) (hdr : List Nat)
    (hfind : find_ticket_for_encryption store now = none)
    (hn : fresh.name.length = 16)
    (hck : fresh.cipherKey.length = 32) (hmk : fresh.macKey.length = 64) :
    (ticket_key_callback_enc store now fresh).ret = 1 ∧
    (ticket_key_callback_enc store now fresh).keyName = fresh.name ∧
    (ticket_key_callback_enc store now fresh).keyName.length = 16 ∧
    (ticket_key_callback_enc store now fresh).encInit =
      some (EVP_aes_256_cbc, fresh.cipherKey) ∧
    (ticket_key_callback_enc store now fresh).macInit = some (EVP_sha256, fresh.macKey) ∧
    (ticket_key_callback_enc store now fresh).ephemeralFreed =
      some (new_ticket EVP_aes_256_cbc EVP_sha256 0 UINT64MAX fresh) ∧
    (new_ticket EVP_aes_256_cbc EVP_sha256 0 UINT64MAX fresh).not_before = 0 ∧
    (new_ticket EVP_aes_256_cbc EVP_sha256 0 UINT64MAX fresh).not_after = UINT64MAX ∧
    free_ticket_mem hdr (new_ticket EVP_aes_256_cbc EVP_sha256 0 UINT64MAX fresh) =
      List.replicate (hdr.length + 32 + 64) 0 ∧
    (fresh.name ∉ store.map Ticket.name →
      ticket_key_callback_dec store fresh.name = ⟨0, none, none⟩) := by
  have hout : ticket_key_callback_enc store now fresh =
      ⟨1, fresh.name, some (EVP_aes_256_cbc, fresh.cipherKey), some (EVP_sha256, fresh.macKey),
        some (new_ticket EVP_aes_256_cbc EVP_sha256 0 UINT64MAX fresh)⟩ := by
    unfold ticket_key_callback_enc
    rw [hfind]
    rfl
  refine ⟨by rw [hout], by rw [hout], by rw [hout]; exact hn, by rw [hout], by rw [hout],
    by rw [hout], rfl, rfl, ?_, ?_⟩
  · exact free_ticket_mem_zero hdr _ hck hmk
  · intro hnotin
    unfold ticket_key_callback_dec
    rw [(findNamed_none_iff store fresh.name).2 ?_]
    intro t ht heq
    exact hnotin (heq ▸ List.mem_map_of_mem Ticket.name ht)

/-- C6 witness: the fallback on the empty store at time 0. -/
theorem c6_encrypt_fallback_witness :
    find_ticket_for_encryption [] 0 = none ∧
      (ticket_key_callback_enc [] 0 exRnd).ret = 1 ∧
      ticket_key_callback_dec [] exRnd.name = ⟨0, none, none⟩ :=
  ⟨rfl, (c6_encrypt_fallback [] 0 exRnd [] rfl (by decide) (by decide) (by decide)).1,
    (c6_encrypt_fallback [] 0 exRnd [] rfl (by decide) (by decide)
        (by decide)).2.2.2.2.2.2.2.2.2 (by decide)⟩

/-- C7 (counterexample): a parseable document with two identical entries
installs the store `[exA, exA]`; at indices 0 < 1 neither
`not_before` strictly decreases nor do the (equal) names strictly increase,
so the claimed strict order does not hold in every observable state. -/
theorem c7_counterexample :
    load_tickets_install (docOf [exA, exA]) = some [exA, exA] ∧
      ¬ List.Pairwise tkLt [exA, exA] := by
  exact ⟨by decide, by decide⟩

/-- C7 (amended): every store installed from a parsed document (file or
cluster rotator) is non-strictly sorted (`ticket_sort_compare ≤ 0`
pairwise), and strictly so whenever the parsed keys have pairwise-distinct
`(not_before, name)` pairs; a local-rotator tick preserves the strict order
provided the lifetime is at least 4 seconds and
`newest.not_before + lifetime/4` does not wrap 64 bits. -/
theorem c7_store_order :
    (∀ s ts, load_tickets_install s = some ts → List.Pairwise tkLe ts) ∧
    (∀ key gen fetch now fresh ts,
        (ticket_memcached_update_tickets key gen fetch now fresh).installed = some ts →
        List.Pairwise tkLe ts) ∧
    (∀ l : List Ticket,
        List.Pairwise (fun x y => ¬(x.not_before = y.not_before ∧ x.name = y.name)) l →
        List.Pairwise tkLt (sortTickets l)) ∧
    (∀ gen store now fresh, List.Pairwise tkLt store → 4 ≤ gen.lifetime →
        newestNotBefore store + gen.lifetime / 4 < u64Mod →
        List.Pairwise tkLt (ticket_internal_updater_tick gen store now fresh)) := by
  refine ⟨?_, fun key gen fetch now fresh ts h => reconcile_installed_sorted h,
    fun l h => sortTickets_pairwise_lt h,
    fun gen store now fresh hp hl hov => tick_pairwise_lt gen store now fresh hp hl hov⟩
  intro s ts h
  unfold load_tickets_install at h
  rcases Option.map_eq_some'.1 h with ⟨parsed, _, rfl⟩
  exact sortTickets_pairwise parsed

/-- C7 witness: the tick-preservation part evaluated on a concrete
singleton store. -/
theorem c7_store_order_witness :
    List.Pairwise tkLt [exB] ∧ 4 ≤ gen3600.lifetime ∧
      newestNotBefore [exB] + gen3600.lifetime / 4 < u64Mod ∧
      List.Pairwise tkLt (ticket_internal_updater_tick gen3600 [exB] 2000 exRnd) :=
  ⟨by simp, by decide, by decide,
    c7_store_order.2.2.2 gen3600 [exB] 2000 exRnd (by simp) (by decide) (by decide)⟩

/-- C8 (counterexample): a parseable document whose two entries carry the
same name installs the store `[c8F, exA]` whose names coincide — parsing
enforces no name distinctness. -/
theorem c8_counterexample :
    load_tickets_install (docOf [exA, c8F]) = some [c8F, exA] ∧ c8F.name = exA.name ∧
      ¬ namesDistinct [c8F, exA] := by
  exact ⟨by decide, by decide, by decide⟩

/-- C8 (amended): sorting preserves name distinctness, so a store installed
from a parsed document has pairwise-distinct names if (and only to the
extent that) the document's decoded names are distinct — parsing does not
enforce it; and a local-rotator tick preserves distinctness whenever the
freshly minted random name does not collide with a stored one. -/
theorem c8_distinct_names :
    (∀ l, namesDistinct l → namesDistinct (sortTickets l)) ∧
    (∀ s ts, parse_tickets s = some ts → namesDistinct ts →
        load_tickets_install s = some (sortTickets ts) ∧ namesDistinct (sortTickets ts)) ∧
    (∀ gen store now fresh, namesDistinct store → fresh.name ∉ store.map Ticket.name →
        namesDistinct (ticket_internal_updater_tick gen store now fresh)) := by
  have hsort : ∀ l, namesDistinct l → namesDistinct (sortTickets l) := by
    intro l h
    exact ((sortTickets_perm l).map Ticket.name).nodup_iff.2 h
  refine ⟨hsort, ?_,
    fun gen store now fresh hn hf => tick_namesDistinct gen store now fresh hn hf⟩
  intro s ts hp hd
  refine ⟨?_, hsort ts hd⟩
  unfold load_tickets_install
  rw [hp]
  rfl

/-- C8 witness: tick preservation evaluated on a concrete singleton
store with a non-colliding fresh name. -/
theorem c8_distinct_names_witness :
    namesDistinct [exB] ∧ exRnd.name ∉ [exB].map Ticket.name ∧
      namesDistinct (ticket_internal_updater_tick gen3600 [exB] 2000 exRnd) :=
  ⟨by decide, by decide,
    c8_distinct_names.2.2 gen3600 [exB] 2000 exRnd (by decide) (by decide)⟩

/-- C9: `free_ticket` wipes the whole allocation —
`sizeof(*ticket) + key_len + block_size` bytes, the sizes re-read from the
ticket being freed — so both the cipher-key region and the MAC-key region of
the released block are zero; `free_tickets` (used for expired pops and for a
replaced store) releases every entry through `free_ticket`. -/
theorem c9_zeroization (hdr : List Nat) (t : Ticket) (ts : List Ticket)
    (h1 : t.cipherKey.length = t.cipher.keyLen) (h2 : t.macKey.length = t.md.blockSize) :
    ((free_ticket_mem hdr t).drop hdr.length).take t.cipher.keyLen =
        List.replicate t.cipher.keyLen 0 ∧
      ((free_ticket_mem hdr t).drop (hdr.length + t.cipher.keyLen)).take t.md.blockSize =
        List.replicate t.md.blockSize 0 ∧
      (t ∈ ts → free_ticket_mem hdr t ∈ free_tickets_mem hdr ts) := by
  obtain ⟨hr1, hr2⟩ := free_ticket_regions hdr t h1 h2
  exact ⟨hr1, hr2, fun ht => List.mem_map_of_mem _ ht⟩

/-- C9 witness: the wipe of a concrete ticket behind a 64-byte header. -/
theorem c9_zeroization_witness :
    exA.cipherKey.length = exA.cipher.keyLen ∧ exA.macKey.length = exA.md.blockSize ∧
      ((free_ticket_mem (List.replicate 64 1) exA).drop 64).take 32 =
        List.replicate 32 0 :=
  ⟨by decide, by decide,
    (c9_zeroization (List.replicate 64 1) exA [exA] (by decide) (by decide)).1⟩

/-- C10 (code bug): the ticket `c10t` renders to exactly 1024 characters;
`snprintf(buf, 1024, ...)` can write only 1023 of them plus the NUL
terminator, yet the guard `l > 1024` does not fire, so `serialize_tickets`
"succeeds" while its output is the truncated 1023 characters followed by a
NUL — not the concatenation of the entry renderings. -/
theorem c10_truncation_bug :
    (serialize_ticket_entry c10t).length = 1024 ∧
      serialize_tickets [c10t] =
        some ((serialize_ticket_entry c10t).take 1023 ++ [Char.ofNat 0]) ∧
      serialize_tickets [c10t] ≠ some (docOf [c10t]) := by
  exact ⟨by decide, by decide, by decide⟩

end H2OSsl
